import Mathlib

/-!
Verification of the gorgeous org-mode data-structure library.

The development shallowly embeds the parts of the source exercised by the
claims: the Gregorian-calendar arithmetic of Go's `time` package that the
repeat-shift engine relies on (`time.Date` normalisation, `AddDate`,
`Add`, `Sub`, `Before`/`After`), the repeat-shift engine itself
(`pkg/org/repeatstamp.go`), the outline tree (`pkg/org/nodetree.go`,
`pkg/org/document.go`), property value restrictions (`pkg/org/property.go`)
and the timestamp-range constructor (`pkg/org/timestamp.go`).

All embedded times are wall-clock values at minute precision in a single
location; the source keeps every time in one `time.Location` as well, so
location conversions are identity and are dropped.
-/

deriving instance DecidableEq for Except

namespace org

/-! ## Calendar arithmetic (the fragment of Go's `time` package used by the source)

Dates are proleptic Gregorian, as in Go.  `time.Date` normalises an
out-of-range month into the year by floored division and an out-of-range
day by walking month lengths; `AddDate(y, m, d)` is
`Date(year+y, month+m, day+d, clock...)`.
-/

def isLeap (y : Int) : Bool :=
  y % 4 == 0 && (y % 100 != 0 || y % 400 == 0)

def daysInMonth (y m : Int) : Int :=
  if m = 2 then (if isLeap y then 29 else 28)
  else if m = 4 ∨ m = 6 ∨ m = 9 ∨ m = 11 then 30
  else 31

/-- Month-into-year normalisation, as done by Go's `norm` helper
(floored division of the zero-based month by 12). -/
def normYM (y m : Int) : Int × Int :=
  (y + (m - 1).fdiv 12, (m - 1).fmod 12 + 1)

/-- Day-of-month normalisation, borrowing from earlier months while the
day is below 1.  Each step adds at least 28 days, so the fuel passed by
`mkDT` always suffices and the out-of-fuel case is never reached. -/
def borrowDays : Nat → Int → Int → Int → Int × Int × Int
  | 0, y, m, d => (y, m, d)
  | f + 1, y, m, d =>
    if 1 ≤ d then (y, m, d)
    else
      let ym := if m = 1 then (y - 1, (12 : Int)) else (y, m - 1)
      borrowDays f ym.1 ym.2 (d + daysInMonth ym.1 ym.2)

/-- Day-of-month normalisation, carrying into later months while the day
exceeds the month length. -/
def carryDays : Nat → Int → Int → Int → Int × Int × Int
  | 0, y, m, d => (y, m, d)
  | f + 1, y, m, d =>
    if d ≤ daysInMonth y m then (y, m, d)
    else
      let ym := if m = 12 then (y + 1, (1 : Int)) else (y, m + 1)
      carryDays f ym.1 ym.2 (d - daysInMonth y m)

/-- A wall-clock instant at minute precision: the resolution at which the
source manipulates times (`Clock()` seconds are always zero in the code
under verification). -/
structure DT where
  year : Int
  month : Int
  day : Int
  hour : Int
  minute : Int
deriving DecidableEq

/-- Go's `time.Date` (restricted to in-range clock values, the only ones
the source produces): normalise the month into the year, then the day
into the month. -/
def mkDT (y m d h mi : Int) : DT :=
  let ym := normYM y m
  let bd := borrowDays (d.natAbs / 28 + 2) ym.1 ym.2 d
  let cd := carryDays (bd.2.2.natAbs / 28 + 2) bd.1 bd.2.1 bd.2.2
  ⟨cd.1, cd.2.1, cd.2.2, h, mi⟩

/-- Go's `Time.AddDate`. -/
def addDate (t : DT) (dy dm dd : Int) : DT :=
  mkDT (t.year + dy) (t.month + dm) (t.day + dd) t.hour t.minute

/-- Days since 1970-01-01 of a normalised date (standard civil-from-days
arithmetic; used only to compare and subtract concrete instants, exactly
as Go compares its absolute times). -/
def daysFromCivil (y m d : Int) : Int :=
  let y' := if m ≤ 2 then y - 1 else y
  let era := y'.fdiv 400
  let yoe := y' - era * 400
  let mp := (m + 9).emod 12
  let doy := (153 * mp + 2).fdiv 5 + d - 1
  let doe := yoe * 365 + yoe.fdiv 4 - yoe.fdiv 100 + doy
  era * 146097 + doe - 719468

def toMinutes (t : DT) : Int :=
  daysFromCivil t.year t.month t.day * 1440 + t.hour * 60 + t.minute

/-- Go's `Time.Add` with a duration given in minutes. -/
def addMinutes (t : DT) (k : Int) : DT :=
  let total := t.hour * 60 + t.minute + k
  let dayShift := total.fdiv 1440
  let rem := total.fmod 1440
  let d := mkDT t.year t.month (t.day + dayShift) 0 0
  ⟨d.year, d.month, d.day, rem.fdiv 60, rem.fmod 60⟩

/-- Go's `t.Before(u)`. -/
def dtBefore (a b : DT) : Prop := toMinutes a < toMinutes b

instance (a b : DT) : Decidable (dtBefore a b) := by
  unfold dtBefore; infer_instance

/-- Go's `t.Sub(u)`, in minutes. -/
def dtSub (a b : DT) : Int := toMinutes a - toMinutes b

/-- Go's zero `time.Time` (January 1, year 1, 00:00). -/
def zeroDT : DT := ⟨1, 1, 1, 0, 0⟩

/-- Go's `Time.IsZero`. -/
def DT.isZero (t : DT) : Bool := t = zeroDT

/-- The month following month `m` of year `y` (what a one-month
`AddDate` step amounts to on the first of a month). -/
def nextYM (y m : Int) : Int × Int :=
  if m = 12 then (y + 1, 1) else (y, m + 1)

/-! ## Timestamps and the repeat directive (`pkg/org/timestamp.go`) -/

inductive RepeatKind where
  | unknown
  | shift
  | shiftFutureFixed
  | shiftFutureRelative
deriving DecidableEq

inductive RepeatIntervalKind where
  | unknown
  | hour
  | day
  | week
  | month
  | year
deriving DecidableEq

structure Repeat where
  kind : RepeatKind
  intervalAmount : Int
  interval : RepeatIntervalKind
deriving DecidableEq

/-- `Timestamp`.  The `End` field of the source is a `time.Time` whose
zero value marks an absent end; `endT` plays that role here (`end` is a
Lean keyword).  The raw cookie string is not modelled: no claim observes
it. -/
structure Timestamp where
  start : DT
  endT : DT
  dateOnly : Bool
  active : Bool
  isRange : Bool
  rep : Option Repeat
deriving DecidableEq

/-- `Timestamp.Day()`. -/
def Timestamp.Day (ts : Timestamp) : Int := ts.start.day

/-! ## The repeat-shift engine (`pkg/org/repeatstamp.go`) -/

/-- `RepeatConfig`.  The `Location` field is dropped: the embedding keeps
all instants in one location. -/
structure RepeatConfig where
  clampToEndOfMonth : Bool
  shiftByDays : Bool
  fixedDate : Bool
deriving DecidableEq

/-- `DefaultRepeatConfig` from `repeatstamp.go`. -/
def DefaultRepeatConfig : RepeatConfig :=
  { clampToEndOfMonth := false, shiftByDays := false, fixedDate := true }

structure RepeatStamp where
  ts : Timestamp
  repeatConfig : RepeatConfig
deriving DecidableEq

inductive ShiftErr where
  | invalidRepeatConfig
deriving DecidableEq

/-- `firstDayOfMonth` (the `time.In` location conversion is the
identity here). -/
def firstDayOfMonth (t : DT) : DT :=
  mkDT t.year t.month 1 t.hour t.minute

/-- `lastDayOfMonth`. -/
def lastDayOfMonth (t : DT) : DT :=
  addDate (firstDayOfMonth t) 0 1 (-1)

/-- `shiftByHours`.  The source's receiver is a pointer, and the
`DateOnly` branch assigns to `rs.Start` through it, mutating the caller's
stamp; the embedding therefore returns the pair
(receiver after the call, returned stamp). -/
def shiftByHours (rs : RepeatStamp) (i : Int) : RepeatStamp × RepeatStamp :=
  let nrs := rs
  let rsA :=
    if rs.ts.dateOnly then
      { rs with ts := { rs.ts with
          start := ⟨rs.ts.start.year, rs.ts.start.month, rs.ts.start.day, 0, 0⟩ } }
    else rs
  let nrs :=
    if rs.ts.dateOnly then { nrs with ts := { nrs.ts with dateOnly := false } }
    else nrs
  let start := addMinutes rsA.ts.start (i * 60)
  let nrs := { nrs with ts := { nrs.ts with start := start } }
  let nrs :=
    if ¬rsA.ts.endT.isZero then
      { nrs with ts := { nrs.ts with endT := addMinutes rsA.ts.endT (i * 60) } }
    else nrs
  (rsA, nrs)

/-- `shiftByDays`. -/
def shiftByDays (rs : RepeatStamp) (i : Int) : RepeatStamp :=
  let nrs := { rs with ts := { rs.ts with start := addDate rs.ts.start 0 0 i } }
  if ¬rs.ts.endT.isZero then
    { nrs with ts := { nrs.ts with endT := addDate rs.ts.endT 0 0 i } }
  else nrs

/-- `shiftByWeeks`. -/
def shiftByWeeks (rs : RepeatStamp) (i : Int) : RepeatStamp :=
  let nrs := { rs with ts := { rs.ts with start := addDate rs.ts.start 0 0 (i * 7) } }
  if ¬rs.ts.endT.isZero then
    { nrs with ts := { nrs.ts with endT := addDate rs.ts.endT 0 0 (i * 7) } }
  else nrs

/-- `shiftByYears`. -/
def shiftByYears (rs : RepeatStamp) (i : Int) : RepeatStamp :=
  let nrs := { rs with ts := { rs.ts with start := addDate rs.ts.start i 0 0 } }
  if ¬rs.ts.endT.isZero then
    { nrs with ts := { nrs.ts with endT := addDate rs.ts.endT i 0 0 } }
  else nrs

/-- `shiftByMonth`: one month step, following the source's branch
structure exactly. -/
def shiftByMonth (rs : RepeatStamp) : Except ShiftErr RepeatStamp :=
  if rs.repeatConfig.shiftByDays ∧ rs.repeatConfig.fixedDate then
    .error .invalidRepeatConfig
  else if rs.repeatConfig.clampToEndOfMonth then
    if ¬rs.repeatConfig.shiftByDays ∧ ¬rs.repeatConfig.fixedDate then
      let sFom := addDate (lastDayOfMonth rs.ts.start) 0 0 1
      let sEom := lastDayOfMonth sFom
      let nrs := { rs with ts := { rs.ts with start := sEom } }
      let nrs :=
        if ¬rs.ts.endT.isZero then
          let eFom := addDate (lastDayOfMonth rs.ts.endT) 0 0 1
          let eEom := lastDayOfMonth eFom
          { nrs with ts := { nrs.ts with endT := eEom } }
        else nrs
      .ok nrs
    else if rs.repeatConfig.shiftByDays then
      let start0 := addDate rs.ts.start 0 0 30
      let sm := if rs.ts.start.month = 12 then 0 else rs.ts.start.month
      let start :=
        if start0.month - sm > 1 then
          let nm := addDate (lastDayOfMonth rs.ts.start) 0 0 1
          lastDayOfMonth nm
        else start0
      let nrs := { rs with ts := { rs.ts with start := start } }
      let nrs :=
        if ¬rs.ts.endT.isZero then
          { nrs with ts := { nrs.ts with
              endT := ⟨start.year, start.month, start.day,
                       rs.ts.endT.hour, rs.ts.endT.minute⟩ } }
        else nrs
      .ok nrs
    else if rs.repeatConfig.fixedDate then
      let nextMonth := addDate (lastDayOfMonth rs.ts.start) 0 0 1
      let monthEnd := lastDayOfMonth nextMonth
      let start :=
        if monthEnd.day < rs.ts.Day then
          mkDT nextMonth.year nextMonth.month monthEnd.day
            rs.ts.start.hour rs.ts.start.minute
        else
          mkDT nextMonth.year nextMonth.month rs.ts.Day
            rs.ts.start.hour rs.ts.start.minute
      let nrs := { rs with ts := { rs.ts with start := start } }
      let nrs :=
        if ¬rs.ts.endT.isZero then
          { nrs with ts := { nrs.ts with
              endT := mkDT start.year start.month start.day
                        rs.ts.endT.hour rs.ts.endT.minute } }
        else nrs
      .ok nrs
    else
      .ok rs
  else
    let nrs := rs
    let nrs :=
      if rs.repeatConfig.shiftByDays then
        let nrs := { nrs with ts := { nrs.ts with
            start := addDate rs.ts.start 0 0 30 } }
        if ¬nrs.ts.endT.isZero then
          { nrs with ts := { nrs.ts with endT := addDate rs.ts.endT 0 0 30 } }
        else nrs
      else nrs
    let nrs :=
      if rs.repeatConfig.fixedDate then
        let nextMonth0 := addDate (lastDayOfMonth rs.ts.start) 0 0 1
        let lastOfMonth := lastDayOfMonth nextMonth0
        let nextMonth :=
          if lastOfMonth.day < rs.ts.Day then addDate nextMonth0 0 1 0
          else nextMonth0
        let nrs := { nrs with ts := { nrs.ts with
            start := mkDT nextMonth.year nextMonth.month rs.ts.Day
                       rs.ts.start.hour rs.ts.start.minute } }
        if ¬rs.ts.endT.isZero then
          { nrs with ts := { nrs.ts with
              endT := mkDT nextMonth.year nextMonth.month rs.ts.Day
                        rs.ts.endT.hour rs.ts.endT.minute } }
        else nrs
      else nrs
    .ok nrs

/-- The loop body of `shiftByMonths`: thread the intermediate stamp
through single month steps. -/
def shiftByMonthsIter : Nat → RepeatStamp → Except ShiftErr RepeatStamp
  | 0, rs => .ok rs
  | n + 1, rs => do
    let next ← shiftByMonth rs
    shiftByMonthsIter n next

/-- `shiftByMonths`.  A non-positive count runs zero iterations, as the
source's `for` loop does. -/
def shiftByMonths (rs : RepeatStamp) (i : Int) : Except ShiftErr RepeatStamp := do
  let irs ← shiftByMonthsIter i.toNat rs
  let nrs := { rs with ts := { rs.ts with start := irs.ts.start } }
  let nrs :=
    if ¬irs.ts.endT.isZero then
      { nrs with ts := { nrs.ts with endT := irs.ts.endT } }
    else nrs
  .ok nrs

/-- `Shiftn`, with the receiver threading of `shiftByHours` made
explicit: the result is `some (receiver after the call, returned stamp)`,
and `none` models the nil-`Repeat` dereference, the `panic(err)` on a
month-shift error and the nil result of the `default` branch. -/
def ShiftnM (rs : RepeatStamp) (i : Int) : Option (RepeatStamp × RepeatStamp) :=
  match rs.ts.rep with
  | none => none
  | some r =>
    let amt := r.intervalAmount
    match r.interval with
    | .hour => some (shiftByHours rs (amt * i))
    | .day => some (rs, shiftByDays rs (amt * i))
    | .week => some (rs, shiftByWeeks rs (amt * i))
    | .month =>
      match shiftByMonths rs (amt * i) with
      | .ok o => some (rs, o)
      | .error _ => none
    | .year => some (rs, shiftByYears rs amt)
    | .unknown => none

/-- `Shiftn`, result only. -/
def Shiftn (rs : RepeatStamp) (i : Int) : Option RepeatStamp :=
  (ShiftnM rs i).map Prod.snd

/-- `int(window.Hours()/delta.Hours())`: the quotient is scale
invariant, so the truncated float division equals truncation of the
exact minute ratio (the ratios arising here are far from the float
rounding granularity). -/
def hoursRatioTrunc (window delta : Int) : Int := window.tdiv delta

/-- `ShiftUntil`, with a fuel bound on the source's unbounded recursion.
The receiver mutation of `Shiftn` (possible for date-only hourly stamps)
is threaded through `ShiftnM` exactly as the shared pointer propagates it
in the source. -/
def ShiftUntil : Nat → RepeatStamp → DT → Option RepeatStamp
  | 0, _, _ => none
  | fuel + 1, rs, t => do
    let nrs := rs
    let (rsA, one) ← ShiftnM rs 1
    let (_, next) ← ShiftnM one 1
    let delta := dtSub one.ts.start rsA.ts.start
    if dtBefore t one.ts.start ∧ dtBefore t one.ts.endT then
      some nrs
    else if dtBefore one.ts.start t ∧ dtBefore t next.ts.start then
      some one
    else
      let window := dtSub t rsA.ts.start
      let shiftN := hoursRatioTrunc window delta
      let (rsB, tryStamp) ← ShiftnM rsA shiftN
      if dtBefore t tryStamp.ts.start ∧ dtBefore t tryStamp.ts.endT then
        let halfShift := shiftN.tdiv 2
        let (_, halfStamp) ← ShiftnM rsB halfShift
        ShiftUntil fuel halfStamp t
      else do
        let (_, confirmTry) ← ShiftnM tryStamp 1
        if dtBefore t confirmTry.ts.start ∧ dtBefore t confirmTry.ts.endT then
          ShiftUntil fuel confirmTry t
        else
          some tryStamp

/-- `ShiftUntilAfter`, with a fuel bound.  The source calls
`after.ShiftUntilAfter(t)` without using its result; the embedding runs
the call (its failure would abort, as a panic would) and likewise
discards the value. -/
def ShiftUntilAfter : Nat → RepeatStamp → DT → Option RepeatStamp
  | 0, _, _ => none
  | fuel + 1, rs, t => do
    let beforeStamp ← ShiftUntil (fuel + 1) rs t
    let (_, afterStamp) ← ShiftnM beforeStamp 1
    if dtBefore afterStamp.ts.start t ∧ dtBefore afterStamp.ts.endT t then do
      let _ ← ShiftUntilAfter fuel afterStamp t
      some afterStamp
    else
      some afterStamp

/-- `Shift`.  The zero-`referenceTime` default to `time.Now()` is real
wall-clock behaviour and is outside the embedding; `t` models a non-zero
reference time.  The fuel bounds the recursion of the
`ShiftUntilAfter` branch. -/
def Shift (fuel : Nat) (rs : RepeatStamp) (t : DT) : Option RepeatStamp :=
  match rs.ts.rep with
  | none => none
  | some r =>
    match r.kind with
    | .shift => Shiftn rs r.intervalAmount
    | .shiftFutureFixed => ShiftUntilAfter fuel rs t
    | .shiftFutureRelative =>
      let nrs := rs
      let now := t
      let duration := if rs.ts.isRange then dtSub rs.ts.endT rs.ts.start else 0
      let nrs := { nrs with ts := { nrs.ts with start := now } }
      let nrs :=
        if ¬rs.ts.endT.isZero then
          { nrs with ts := { nrs.ts with endT := addMinutes nrs.ts.start duration } }
        else nrs
      Shiftn nrs 1
    | .unknown => none

/-! ## The outline tree (`pkg/org/nodetree.go`, `pkg/org/document.go`)

A `MetaNodeTree` holds a node (whose level is its heading's level, or 0
for the heading-less root), a parent pointer and the ordered `Subtree`
list.  The embedding keeps the level, whether the node has a heading, an
identifying name, and the children; parent pointers are represented by
the context in which an operation runs (the source's `WalkBackToLevel`
loop reads `tree.Level()` once before iterating, so it never looks past
the immediate parent).  `MNTs` is the children list as a mutually
inductive type so that all tree operations are structurally
recursive. -/

mutual
inductive MNT : Type where
  | mk : (level : Int) → (headed : Bool) → (name : String) → (children : MNTs) → MNT
inductive MNTs : Type where
  | nil : MNTs
  | cons : MNT → MNTs → MNTs
end

def MNT.level : MNT → Int
  | .mk l _ _ _ => l

def MNT.headed : MNT → Bool
  | .mk _ h _ _ => h

def MNT.name : MNT → String
  | .mk _ _ n _ => n

def MNT.children : MNT → MNTs
  | .mk _ _ _ cs => cs

def MNTs.toList : MNTs → List MNT
  | .nil => []
  | .cons c cs => c :: cs.toList

def MNTs.snoc : MNTs → MNT → MNTs
  | .nil, x => .cons x .nil
  | .cons c cs, x => .cons c (cs.snoc x)

def MNTs.getIdx : MNTs → Nat → Option MNT
  | .nil, _ => none
  | .cons c _, 0 => some c
  | .cons _ cs, n + 1 => cs.getIdx n

def MNTs.setIdx : MNTs → Nat → MNT → MNTs
  | .nil, _, _ => .nil
  | .cons _ cs, 0, x => .cons x cs
  | .cons c cs, n + 1, x => .cons c (cs.setIdx n x)

def MNTs.appendList : MNTs → List MNT → MNTs
  | cs, [] => cs
  | cs, x :: xs => (cs.snoc x).appendList xs

/-- `NewMetaNodeTree`: the root position, level 0, no heading. -/
def NewMetaNodeTree : MNT := .mk 0 false "root" .nil

mutual
/-- `Flatten`: a copy of the node with `Subtree` emptied and `Parent`
cleared, followed by the flattened children in order. -/
def MNT.Flatten : MNT → List MNT
  | .mk l h n cs => .mk l h n .nil :: cs.flattenAll
def MNTs.flattenAll : MNTs → List MNT
  | .nil => []
  | .cons c cs => c.Flatten ++ cs.flattenAll
end

mutual
def MNT.allHeaded : MNT → Bool
  | .mk _ h _ cs => h && cs.allHeadedList
def MNTs.allHeadedList : MNTs → Bool
  | .nil => true
  | .cons c cs => c.allHeaded && cs.allHeadedList
end

/-- `WalkBackToLevel` on a node of level `selfLevel` whose ancestor
levels (nearest first) are `parentLevels`; the result is the index up
the parent chain of the returned node.  The source's loop evaluates
`lvl := tree.Level()` once and its condition coincides with the body's
return test, so it either returns the immediate parent on the first
iteration or exits with nil: the walk never gets past the parent. -/
def WalkBackToLevel (selfLevel : Int) (parentLevels : List Int)
    (target : Int) : Option Nat :=
  if selfLevel ≤ target then some 0
  else
    match parentLevels with
    | [] => none
    | p :: _ => if p ≤ target then some 1 else none

/-- `buildTreesFromList`.  The list elements are always flattened copies
(`Flatten` clears `Parent`), so in the branch for a node at the level of
the list head, `last.Parent` is nil and `AddSubtree` on it faults, and in
the branch for a shallower node, `last.WalkBackToLevel` finds neither
`last` (its level is too high) nor a parent and returns nil, reaching
`panic("Unable to place node")`; both are modelled as `none`.  A node
deeper than the head matches no branch and is dropped.  `last` is
initialised to the head of the list and never reassigned in the
source. -/
def btflStep (h : MNT) (acc : List MNT × MNT) (t : MNT) : Option (List MNT × MNT) :=
  if t.level ≤ acc.2.level then some (acc.1 ++ [t], t)
  else if t.level = h.level then none
  else if t.level < h.level then none
  else some acc

def buildTreesFromList (l : List MNT) : Option (List MNT) :=
  match l with
  | [] => some []
  | h :: _ => (l.foldlM (btflStep h) (([] : List MNT), h)).map Prod.fst

/-- The body of `InsertSubtree` at an anchor whose parent's level is
`parentLevel` (`none` when the anchor is the root).  Returns the anchor
with its rebuilt `Subtree` and the list of trees appended to the
anchor's parent's `Subtree` by the `st.Level() <= retree.Level()`
branch.  When `WalkBackToLevel` resolves to the anchor itself the added
subtree lands in `mnt.Subtree`, which the final
`mnt.Subtree = retree.Subtree` assignment overwrites, so such a tree is
lost. -/
def spliceStep (anchor : MNT) (parentLevel : Option Int) (acc : MNT × List MNT)
    (st : MNT) : Option (MNT × List MNT) :=
  if st.level ≤ anchor.level then
    match WalkBackToLevel anchor.level parentLevel.toList (st.level - 1) with
    | none => none
    | some 0 => some acc
    | some _ => some (acc.1, acc.2 ++ [st])
  else
    some (.mk acc.1.level acc.1.headed acc.1.name (acc.1.children.snoc st), acc.2)

def InsertSubtreeCore (anchor : MNT) (t : MNT) (parentLevel : Option Int) :
    Option (MNT × List MNT) :=
  match buildTreesFromList (t.Flatten ++ anchor.children.flattenAll) with
  | none => none
  | some subtrees =>
    subtrees.foldlM (spliceStep anchor parentLevel)
      ((.mk anchor.level anchor.headed anchor.name .nil : MNT), ([] : List MNT))

/-- `InsertSubtree` applied at the node addressed by `path` (a list of
child indices from the root).  Trees that the source appends to the
anchor's parent's `Subtree` are appended after that parent's existing
children, in processing order. -/
def InsertSubtreeAux : MNT → List Nat → MNT → Option Int → Option (MNT × List MNT)
  | anchor, [], sub, parentLevel => InsertSubtreeCore anchor sub parentLevel
  | t, i :: rest, sub, _ =>
    match t.children.getIdx i with
    | none => none
    | some c =>
      match InsertSubtreeAux c rest sub (some t.level) with
      | none => none
      | some (c', ups) =>
        some (.mk t.level t.headed t.name ((t.children.setIdx i c').appendList ups), [])

def InsertSubtreeAt (t : MNT) (path : List Nat) (sub : MNT) : Option MNT :=
  match InsertSubtreeAux t path sub none with
  | some (t', []) => some t'
  | _ => none

inductive AddErr where
  | invalidLevel (lvl : Int)
  | fatal
deriving DecidableEq

/-- The placement step of `AddHeading` for a tree with children: walk to
the last element of `GetEndNodes()` — the leaf reached by following last
children — and apply the two placement branches, with `WalkBackToLevel`
inlined (it inspects only the last node and its immediate parent; see
`WalkBackToLevel`).  `pl` is the level of the node owning `cs`; the new
node is appended at the end of whichever `Subtree` receives it, which for
the parent branch is right after its last child. -/
def insertAtLastEnd : Int → MNTs → Int → MNT → Except AddErr MNTs
  | _, .nil, _, _ => .error .fatal
  | pl, .cons c .nil, lvl, node =>
    match c with
    | .mk cl ch cn ccs =>
      match ccs with
      | .nil =>
        if cl < lvl then
          .ok (.cons (.mk cl ch cn (.cons node .nil)) .nil)
        else if cl ≤ lvl - 1 then
          .ok (.cons (.mk cl ch cn (MNTs.nil.snoc node)) .nil)
        else if pl ≤ lvl - 1 then
          .ok (.cons (.mk cl ch cn .nil) (.cons node .nil))
        else
          .error .fatal
      | .cons d ds =>
        match insertAtLastEnd cl (.cons d ds) lvl node with
        | .ok ccs' => .ok (.cons (.mk cl ch cn ccs') .nil)
        | .error e => .error e
  | pl, .cons c (.cons d ds), lvl, node =>
    match insertAtLastEnd pl (.cons d ds) lvl node with
    | .ok cs' => .ok (.cons c cs')
    | .error e => .error e

/-- `Document.AddHeading` on the document's root tree.  For an empty
tree the sole end node is the root itself (nodetree.go's `GetEndNodes`
returns the receiver when it found no leaf), and `WalkBackToLevel` on the
root can only return the root or nil. -/
def AddHeading (root : MNT) (lvl : Int) (nm : String) : Except AddErr MNT :=
  if lvl < 0 then .error (.invalidLevel lvl)
  else
    let node : MNT := .mk lvl true nm .nil
    if lvl = 1 then
      .ok (.mk root.level root.headed root.name (root.children.snoc node))
    else
      match root.children with
      | .nil =>
        if root.level < lvl then
          .ok (.mk root.level root.headed root.name (.cons node .nil))
        else if root.level ≤ lvl - 1 then
          .ok (.mk root.level root.headed root.name (root.children.snoc node))
        else
          .error .fatal
      | .cons c cs =>
        match insertAtLastEnd root.level (.cons c cs) lvl node with
        | .ok cs' => .ok (.mk root.level root.headed root.name cs')
        | .error e => .error e

/-- The level invariant, stated strictly for every parent-child pair
(which subsumes the claim's version restricted to non-root parents):
each child's level strictly exceeds its parent's. -/
inductive LevelsOK : MNT → Prop where
  | intro : ∀ (l : Int) (h : Bool) (n : String) (cs : MNTs),
      (∀ c ∈ cs.toList, l < c.level) →
      (∀ c ∈ cs.toList, LevelsOK c) → LevelsOK (.mk l h n cs)

/-- Trees reachable from the fresh document root by successful heading
insertions and subtree splices.  A spliced subtree is required to carry
headings on all its nodes: in the source, a heading-less node elsewhere
than the root reads its level through `Node.Level`, whose behaviour
(returning 0 once `Flatten` has cleared the copy's parent) has no
counterpart for the stored levels of this embedding, and the spec makes
a nil heading the prerogative of the root. -/
inductive Reach : MNT → Prop where
  | init : Reach NewMetaNodeTree
  | insert : ∀ (t t' : MNT) (lvl : Int) (nm : String),
      Reach t → AddHeading t lvl nm = .ok t' → Reach t'
  | splice : ∀ (t t' sub : MNT) (path : List Nat),
      Reach t → sub.allHeaded = true → InsertSubtreeAt t path sub = some t' →
      Reach t'

/-- Invariant carried through the subtree-placement fold of
`InsertSubtree`. -/
def SpliceInv (anchor : MNT) (pl : Option Int) (acc : MNT × List MNT) : Prop :=
  acc.1.level = anchor.level ∧ acc.1.headed = anchor.headed ∧
  (∀ c ∈ acc.1.children.toList, anchor.level < c.level ∧ c.children = .nil) ∧
  (∀ u ∈ acc.2, (∃ p, pl = some p ∧ p < u.level) ∧ u.children = .nil)

/-! ## Property value restrictions (`pkg/org/property.go`) -/

structure Property where
  key : String
  value : String
deriving DecidableEq

/-- `IsValueRestriction`: `p.Key[len(p.Key)-4:] == "_All"`.  A key
shorter than four bytes makes the slice expression fault (`none`). -/
def IsValueRestriction (p : Property) : Option Bool :=
  let k := p.key.toList
  if k.length < 4 then none
  else some (k.drop (k.length - 4) = "_All".toList)

/-- The rune loop of `RestrictionValues`: toggle the quote flag on `"`,
emit the accumulated value on an unquoted space, and otherwise extend
the accumulated value.  The loop ends without emitting the final
accumulated value, exactly as the source returns `out` with the last
`val` still pending. -/
def restrictionLoop (cs : List Char) : List String :=
  (cs.foldl (fun acc c =>
      if c = '\"' then (!acc.1, acc.2.1, acc.2.2)
      else if c = ' ' ∧ acc.1 = false then (acc.1, [], acc.2.2 ++ [String.mk acc.2.1])
      else (acc.1, acc.2.1 ++ [c], acc.2.2))
    ((false : Bool), ([] : List Char), ([] : List String))).2.2

/-- `RestrictionValues`. -/
def RestrictionValues (p : Property) : Option (List String) :=
  match IsValueRestriction p with
  | none => none
  | some false => some []
  | some true => some (restrictionLoop p.value.toList)

structure InvalidPropertyValueError where
  property : String
  propertyValue : String
  restrictor : String
  restrictorValues : List String
deriving DecidableEq

inductive PropError where
  | notValueRestriction (property : String)
  | invalidPropertyValue (e : InvalidPropertyValueError)
deriving DecidableEq

/-- `Validate`.  The source constructs the failure with
`NewInvalidPropertyValueError(p, prop)` whose parameters are
`(p, r *Property)` — the validated property first, the restrictor
second — so the receiver `p` lands in the `Property`/`PropertyValue`
fields and the candidate `prop` in the `Restrictor`/`RestrictorValues`
fields. -/
def Validate (p prop : Property) : Option (Except PropError Unit) :=
  match IsValueRestriction p with
  | none => none
  | some false => some (.error (.notValueRestriction p.key))
  | some true =>
    match RestrictionValues p with
    | none => none
    | some vals =>
      if prop.value ∈ vals then some (.ok ())
      else
        match RestrictionValues prop with
        | none => none
        | some rvals =>
          some (.error (.invalidPropertyValue
            ⟨p.key, p.value, prop.key, rvals⟩))

/-! ## Timestamp ranges (`pkg/org/timestamp.go`, the revision carrying
`TimestampRangeOpt`) -/

structure TimestampRange where
  startDate : Option Timestamp
  endDate : Option Timestamp
  compatibility : Bool
deriving DecidableEq

inductive RangeErr where
  | nilTimestamps
  | nilStartTime
deriving DecidableEq

/-- `NewTimestampRange`.  The option functions only set
`Compatibility`, which no claim observes, so they are not modelled. -/
def NewTimestampRange (start endArg : Option Timestamp) :
    Except RangeErr TimestampRange :=
  match start with
  | none =>
    match endArg with
    | none => .error .nilTimestamps
    | some _ => .error .nilStartTime
  | some s =>
    let tr : TimestampRange :=
      { startDate := some s, endDate := none, compatibility := false }
    match endArg with
    | none => .error .nilTimestamps
    | some e => .ok { tr with endDate := some e }

/-! ## Concrete instances used by the theorems -/

/-- A repeat stamp with no end time and no time-range flag, as
`NewRepeatStamp` builds one from a start time and a repeat cookie. -/
def mkStamp (d : DT) (r : Repeat) (cfg : RepeatConfig) : RepeatStamp :=
  { ts := { start := d, endT := zeroDT, dateOnly := false, active := true,
            isRange := false, rep := some r }, repeatConfig := cfg }

/-- A `+2d` stamp starting 2020-01-01 08:30. -/
def stampPlus2d : RepeatStamp :=
  mkStamp ⟨2020, 1, 1, 8, 30⟩ ⟨.shift, 2, .day⟩ DefaultRepeatConfig

/-- The clamp-plus-fixed-date month policy. -/
def cfgClampFixedDate : RepeatConfig :=
  { clampToEndOfMonth := true, shiftByDays := false, fixedDate := true }

/-- A monthly repeat anchored on 2021-01-31 09:00 under the
clamp-plus-fixed-date policy. -/
def stampJan31 : RepeatStamp :=
  mkStamp ⟨2021, 1, 31, 9, 0⟩ ⟨.shift, 1, .month⟩ cfgClampFixedDate

/-- A monthly `++1m` repeat anchored on 2021-01-15 00:00 under the
default (fixed-date, no clamp) policy. -/
def stampJan15 : RepeatStamp :=
  mkStamp ⟨2021, 1, 15, 0, 0⟩ ⟨.shiftFutureFixed, 1, .month⟩ DefaultRepeatConfig

/-- The target instant 2021-12-20 00:00. -/
def targetDec20 : DT := ⟨2021, 12, 20, 0, 0⟩

/-- A config with both day-counting policies set. -/
def cfgBothDayPolicies : RepeatConfig :=
  { clampToEndOfMonth := false, shiftByDays := true, fixedDate := true }

/-- A monthly stamp carrying the invalid config. -/
def stampBadConfig : RepeatStamp :=
  mkStamp ⟨2020, 1, 1, 0, 0⟩ ⟨.shift, 1, .month⟩ cfgBothDayPolicies

/-- A date-only hourly `+1h` stamp whose start carries the clock 08:30. -/
def stampDateOnlyHourly : RepeatStamp :=
  { ts := { start := ⟨2020, 1, 1, 8, 30⟩, endT := zeroDT, dateOnly := true,
            active := true, isRange := false, rep := some ⟨.shift, 1, .hour⟩ },
    repeatConfig := DefaultRepeatConfig }

/-- The tree `root[A(1)[B(2), C(2)]]` of the splice example. -/
def treeABC : MNT :=
  .mk 0 false "root" (.cons (.mk 1 true "A"
    (.cons (.mk 2 true "B" .nil) (.cons (.mk 2 true "C" .nil) .nil))) .nil)

/-- The single-node subtree `X(2)`. -/
def subX : MNT := .mk 2 true "X" .nil

/-- The tree `root[A(1)[B(3)]]`: B sits two levels below its level-1
parent, which the level invariant allows. -/
def treeAB3 : MNT :=
  .mk 0 false "root" (.cons (.mk 1 true "A"
    (.cons (.mk 3 true "B" .nil) .nil)) .nil)

/-- `Color_All` restriction property of the round-trip example. -/
def colorAll : Property := ⟨"Color_All", "red green \"light blue\""⟩

def colorRed : Property := ⟨"Color", "red"⟩

def colorPurple : Property := ⟨"Color", "purple"⟩

/-- The tree built by inserting a level-1 heading into a fresh document. -/
def treeLvl1 : MNT := .mk 0 false "root" (.cons (.mk 1 true "a" .nil) .nil)

/-- The tree built by inserting a level-1 then a level-3 heading: a
level gap of two, which the invariant allows. -/
def treeLvl13 : MNT :=
  .mk 0 false "root" (.cons (.mk 1 true "a" (.cons (.mk 3 true "b" .nil) .nil)) .nil)

/-- A plain timestamp for the range-constructor witness. -/
def tsPlain : Timestamp :=
  { start := ⟨2020, 1, 1, 0, 0⟩, endT := zeroDT, dateOnly := false,
    active := true, isRange := false, rep := none }

set_option maxRecDepth 100000

/-! ## Calendar lemmas

Symbolic-date facts about the embedded Go `time` arithmetic, used for
the month-drift claim: on a valid date, `time.Date` is the identity, the
`lastDayOfMonth` helper lands on the month's last day, and the
`AddDate(0, 0, 1)` step off a month's last day lands on the first of the
next month. -/

theorem daysInMonth_ge (y m : Int) : 28 ≤ daysInMonth y m := by
  unfold daysInMonth
  split
  · split <;> omega
  · split <;> omega

theorem daysInMonth_le (y m : Int) : daysInMonth y m ≤ 31 := by
  unfold daysInMonth
  split
  · split <;> omega
  · split <;> omega

theorem daysInMonth_12 (y : Int) : daysInMonth y 12 = 31 := by
  norm_num [daysInMonth]

theorem normYM_id (y m : Int) (h1 : 1 ≤ m) (h2 : m ≤ 12) : normYM y m = (y, m) := by
  unfold normYM
  rw [Int.fdiv_eq_ediv _ (by omega), Int.fmod_eq_emod _ (by omega)]
  rw [Prod.mk.injEq]
  omega

theorem normYM_13 (y : Int) : normYM y 13 = (y + 1, 1) := by
  unfold normYM
  rw [Int.fdiv_eq_ediv _ (by omega), Int.fmod_eq_emod _ (by omega)]
  rw [Prod.mk.injEq]
  omega

theorem borrowDays_stop (f : Nat) (y m d : Int) (h : 1 ≤ d) :
    borrowDays (f + 1) y m d = (y, m, d) := by
  simp [borrowDays, h]

theorem borrowDays_step1 (f : Nat) (y d : Int) (h : ¬1 ≤ d) :
    borrowDays (f + 1) y 1 d =
      borrowDays f (y - 1) 12 (d + daysInMonth (y - 1) 12) := by
  simp [borrowDays, h]

theorem borrowDays_stepm (f : Nat) (y m d : Int) (hm : m ≠ 1) (h : ¬1 ≤ d) :
    borrowDays (f + 1) y m d =
      borrowDays f y (m - 1) (d + daysInMonth y (m - 1)) := by
  simp [borrowDays, h, hm]

theorem carryDays_stop (f : Nat) (y m d : Int) (h : d ≤ daysInMonth y m) :
    carryDays (f + 1) y m d = (y, m, d) := by
  simp [carryDays, h]

theorem carryDays_step12 (f : Nat) (y d : Int) (h : ¬d ≤ daysInMonth y 12) :
    carryDays (f + 1) y 12 d = carryDays f (y + 1) 1 (d - daysInMonth y 12) := by
  simp [carryDays, h]

theorem carryDays_stepm (f : Nat) (y m d : Int) (hm : m ≠ 12)
    (h : ¬d ≤ daysInMonth y m) :
    carryDays (f + 1) y m d = carryDays f y (m + 1) (d - daysInMonth y m) := by
  simp [carryDays, h, hm]

theorem mkDT_valid (y m d h mi : Int) (h1 : 1 ≤ m) (h2 : m ≤ 12) (h3 : 1 ≤ d)
    (h4 : d ≤ daysInMonth y m) : mkDT y m d h mi = ⟨y, m, d, h, mi⟩ := by
  have hb : borrowDays (d.natAbs / 28 + 2) y m d = (y, m, d) := by
    obtain ⟨k, hk⟩ : ∃ k, d.natAbs / 28 + 2 = k + 1 := ⟨_, rfl⟩
    rw [hk]
    exact borrowDays_stop _ _ _ _ h3
  have hc : carryDays (d.natAbs / 28 + 2) y m d = (y, m, d) := by
    obtain ⟨k, hk⟩ : ∃ k, d.natAbs / 28 + 2 = k + 1 := ⟨_, rfl⟩
    rw [hk]
    exact carryDays_stop _ _ _ _ h4
  simp only [mkDT, normYM_id y m h1 h2, hb, hc]

theorem mkDT_month_day0 (y m h mi : Int) (h1 : 2 ≤ m) (h2 : m ≤ 12) :
    mkDT y m 0 h mi = ⟨y, m - 1, daysInMonth y (m - 1), h, mi⟩ := by
  have hb : borrowDays ((0 : Int).natAbs / 28 + 2) y m 0 =
      (y, m - 1, daysInMonth y (m - 1)) := by
    rw [show (0 : Int).natAbs / 28 + 2 = 1 + 1 from by norm_num]
    rw [borrowDays_stepm _ _ _ _ (by omega) (by omega)]
    rw [zero_add]
    rw [show (1 : Nat) = 0 + 1 from rfl]
    exact borrowDays_stop _ _ _ _ (by have := daysInMonth_ge y (m - 1); omega)
  have hc : carryDays ((daysInMonth y (m - 1)).natAbs / 28 + 2) y (m - 1)
      (daysInMonth y (m - 1)) = (y, m - 1, daysInMonth y (m - 1)) := by
    obtain ⟨k, hk⟩ : ∃ k, (daysInMonth y (m - 1)).natAbs / 28 + 2 = k + 1 := ⟨_, rfl⟩
    rw [hk]
    exact carryDays_stop _ _ _ _ le_rfl
  simp only [mkDT, normYM_id y m (by omega) h2, hb, hc]

theorem mkDT_13_day0 (y h mi : Int) :
    mkDT y 13 0 h mi = ⟨y, 12, 31, h, mi⟩ := by
  have hb : borrowDays ((0 : Int).natAbs / 28 + 2) (y + 1) 1 0 = (y, 12, 31) := by
    rw [show (0 : Int).natAbs / 28 + 2 = 1 + 1 from by norm_num]
    rw [borrowDays_step1 _ _ _ (by omega)]
    rw [show y + 1 - 1 = y from by omega]
    rw [daysInMonth_12, zero_add]
    rw [show (1 : Nat) = 0 + 1 from rfl]
    exact borrowDays_stop _ _ _ _ (by omega)
  have hc : carryDays ((31 : Int).natAbs / 28 + 2) y 12 31 = (y, 12, 31) := by
    rw [show (31 : Int).natAbs / 28 + 2 = ((31 : Int).natAbs / 28 + 1) + 1 from rfl]
    exact carryDays_stop _ _ _ _ (by rw [daysInMonth_12])
  simp only [mkDT, normYM_13 y, hb, hc]

theorem lastDayOfMonth_valid (y m d h mi : Int) (h1 : 1 ≤ m) (h2 : m ≤ 12)
    (h3 : 1 ≤ d) (h4 : d ≤ daysInMonth y m) :
    lastDayOfMonth ⟨y, m, d, h, mi⟩ = ⟨y, m, daysInMonth y m, h, mi⟩ := by
  simp only [lastDayOfMonth, firstDayOfMonth, addDate]
  rw [mkDT_valid y m 1 h mi h1 h2 le_rfl (by have := daysInMonth_ge y m; omega)]
  simp only
  rw [show (1 : Int) + -1 = 0 from by norm_num, add_zero]
  rcases eq_or_ne m 12 with hm | hm
  · subst hm
    rw [show (12 : Int) + 1 = 13 from by norm_num, mkDT_13_day0, daysInMonth_12]
  · rw [mkDT_month_day0 y (m + 1) h mi (by omega) (by omega),
      show m + 1 - 1 = m from by omega]

theorem addDate_last_plus1 (y m h mi : Int) (h1 : 1 ≤ m) (h2 : m ≤ 12) :
    addDate ⟨y, m, daysInMonth y m, h, mi⟩ 0 0 1 =
      ⟨(nextYM y m).1, (nextYM y m).2, 1, h, mi⟩ := by
  simp only [addDate]
  rw [add_zero, add_zero]
  have hb : borrowDays ((daysInMonth y m + 1).natAbs / 28 + 2) y m
      (daysInMonth y m + 1) = (y, m, daysInMonth y m + 1) := by
    obtain ⟨k, hk⟩ : ∃ k, (daysInMonth y m + 1).natAbs / 28 + 2 = k + 1 := ⟨_, rfl⟩
    rw [hk]
    exact borrowDays_stop _ _ _ _ (by have := daysInMonth_ge y m; omega)
  have hc : carryDays ((daysInMonth y m + 1).natAbs / 28 + 2) y m
      (daysInMonth y m + 1) = ((nextYM y m).1, (nextYM y m).2, 1) := by
    rw [show (daysInMonth y m + 1).natAbs / 28 + 2 =
      ((daysInMonth y m + 1).natAbs / 28 + 1) + 1 from rfl]
    unfold nextYM
    rcases eq_or_ne m 12 with hm | hm
    · subst hm
      rw [carryDays_step12 _ _ _ (by omega)]
      rw [show daysInMonth y 12 + 1 - daysInMonth y 12 = 1 from by omega]
      rw [if_pos rfl]
      exact carryDays_stop _ _ _ _ (by have := daysInMonth_ge (y + 1) 1; omega)
    · rw [carryDays_stepm _ _ _ _ hm (by omega)]
      rw [show daysInMonth y m + 1 - daysInMonth y m = 1 from by omega]
      rw [if_neg hm]
      exact carryDays_stop _ _ _ _ (by have := daysInMonth_ge y (m + 1); omega)
  simp only [mkDT, normYM_id y m h1 h2, hb, hc]

theorem nextYM_bounds (y m : Int) (h1 : 1 ≤ m) (h2 : m ≤ 12) :
    1 ≤ (nextYM y m).2 ∧ (nextYM y m).2 ≤ 12 := by
  unfold nextYM
  split <;> simp <;> omega

/-- One clamp-plus-fixed-date month step on a stamp whose start day is
at most 28 and whose end is unset: the start moves to the same day of
the following month and nothing else changes. -/
theorem shiftByMonth_clampFD (rs : RepeatStamp)
    (hc : rs.repeatConfig = cfgClampFixedDate)
    (hz : rs.ts.endT = zeroDT)
    (hm1 : 1 ≤ rs.ts.start.month) (hm2 : rs.ts.start.month ≤ 12)
    (hd1 : 1 ≤ rs.ts.start.day) (hd : rs.ts.start.day ≤ 28) :
    shiftByMonth rs = .ok { rs with ts := { rs.ts with start :=
      ⟨(nextYM rs.ts.start.year rs.ts.start.month).1,
       (nextYM rs.ts.start.year rs.ts.start.month).2,
       rs.ts.start.day, rs.ts.start.hour, rs.ts.start.minute⟩ } } := by
  obtain ⟨⟨⟨y, m, d, h, mi⟩, en, donly, act, isr, rep⟩, cfg⟩ := rs
  simp only at hm1 hm2 hd1 hd hc hz
  subst hc
  subst hz
  have e1 : lastDayOfMonth ⟨y, m, d, h, mi⟩ = ⟨y, m, daysInMonth y m, h, mi⟩ :=
    lastDayOfMonth_valid y m d h mi hm1 hm2 hd1
      (by have := daysInMonth_ge y m; omega)
  have e2 : addDate ⟨y, m, daysInMonth y m, h, mi⟩ 0 0 1 =
      ⟨(nextYM y m).1, (nextYM y m).2, 1, h, mi⟩ :=
    addDate_last_plus1 y m h mi hm1 hm2
  have hnb := nextYM_bounds y m hm1 hm2
  have e3 : lastDayOfMonth ⟨(nextYM y m).1, (nextYM y m).2, 1, h, mi⟩ =
      ⟨(nextYM y m).1, (nextYM y m).2,
       daysInMonth (nextYM y m).1 (nextYM y m).2, h, mi⟩ :=
    lastDayOfMonth_valid _ _ 1 h mi hnb.1 hnb.2 le_rfl
      (by have := daysInMonth_ge (nextYM y m).1 (nextYM y m).2; omega)
  have e4 : mkDT (nextYM y m).1 (nextYM y m).2 d h mi =
      ⟨(nextYM y m).1, (nextYM y m).2, d, h, mi⟩ :=
    mkDT_valid _ _ d h mi hnb.1 hnb.2 hd1
      (by have := daysInMonth_ge (nextYM y m).1 (nextYM y m).2; omega)
  have hlt : ¬(daysInMonth (nextYM y m).1 (nextYM y m).2 < d) := by
    have := daysInMonth_ge (nextYM y m).1 (nextYM y m).2
    omega
  simp only [shiftByMonth, cfgClampFixedDate, Timestamp.Day, e1, e2, e3, e4,
    hlt, DT.isZero]
  simp

/-- Iterating clamp-plus-fixed-date month steps preserves the start
day once it is at most 28, and keeps the end unset. -/
theorem shiftByMonthsIter_day (n : Nat) (rs : RepeatStamp)
    (hc : rs.repeatConfig = cfgClampFixedDate) (hz : rs.ts.endT = zeroDT)
    (hm1 : 1 ≤ rs.ts.start.month) (hm2 : rs.ts.start.month ≤ 12)
    (hd1 : 1 ≤ rs.ts.start.day) (hd : rs.ts.start.day ≤ 28) :
    ∃ rs', shiftByMonthsIter n rs = .ok rs' ∧
      rs'.ts.endT = zeroDT ∧ rs'.ts.start.day = rs.ts.start.day := by
  induction n generalizing rs with
  | zero => exact ⟨rs, rfl, hz, rfl⟩
  | succ k ih =>
    have hstep := shiftByMonth_clampFD rs hc hz hm1 hm2 hd1 hd
    set rs1 : RepeatStamp := { rs with ts := { rs.ts with start :=
      ⟨(nextYM rs.ts.start.year rs.ts.start.month).1,
       (nextYM rs.ts.start.year rs.ts.start.month).2,
       rs.ts.start.day, rs.ts.start.hour, rs.ts.start.minute⟩ } } with hrs1
    have hnb := nextYM_bounds rs.ts.start.year rs.ts.start.month hm1 hm2
    obtain ⟨rs', h1, h2, h3⟩ := ih rs1 (by simp [hrs1, hc]) (by simp [hrs1, hz])
      (by simp [hrs1]; exact hnb.1) (by simp [hrs1]; exact hnb.2)
      (by simp [hrs1]; exact hd1) (by simp [hrs1]; exact hd)
    refine ⟨rs', ?_, h2, ?_⟩
    · show (do
        let next ← shiftByMonth rs
        shiftByMonthsIter k next) = .ok rs'
      rw [hstep]
      exact h1
    · rw [h3]

/-! ## Outline-tree lemmas

Preservation of the strict level invariant by successful heading
insertions and subtree splices. -/

theorem levelsOK_inv {l : Int} {h : Bool} {n : String} {cs : MNTs}
    (hp : LevelsOK (.mk l h n cs)) :
    (∀ c ∈ cs.toList, l < c.level) ∧ ∀ c ∈ cs.toList, LevelsOK c := by
  cases hp with
  | intro _ _ _ _ h1 h2 => exact ⟨h1, h2⟩

theorem levelsOK_childless (l : Int) (h : Bool) (n : String) :
    LevelsOK (.mk l h n .nil) := by
  refine .intro l h n .nil ?_ ?_ <;> intro c hc <;> simp [MNTs.toList] at hc

theorem toList_snoc (cs : MNTs) (x : MNT) :
    (cs.snoc x).toList = cs.toList ++ [x] := by
  match cs with
  | .nil => rfl
  | .cons c cs => simp [MNTs.snoc, MNTs.toList, toList_snoc cs x]

theorem mem_setIdx (cs : MNTs) (i : Nat) (x y : MNT)
    (hy : y ∈ (cs.setIdx i x).toList) : y = x ∨ y ∈ cs.toList := by
  match cs, i with
  | .nil, _ => simp [MNTs.setIdx, MNTs.toList] at hy
  | .cons c cs, 0 =>
    simp [MNTs.setIdx, MNTs.toList] at hy
    rcases hy with hy | hy
    · exact .inl hy
    · exact .inr (by simp [MNTs.toList, hy])
  | .cons c cs, i + 1 =>
    simp [MNTs.setIdx, MNTs.toList] at hy
    rcases hy with hy | hy
    · exact .inr (by simp [MNTs.toList, hy])
    · rcases mem_setIdx cs i x y hy with h | h
      · exact .inl h
      · exact .inr (by simp [MNTs.toList, h])

theorem toList_appendList (cs : MNTs) (l : List MNT) :
    (cs.appendList l).toList = cs.toList ++ l := by
  match l with
  | [] => simp [MNTs.appendList]
  | x :: xs => simp [MNTs.appendList, toList_appendList (cs.snoc x) xs, toList_snoc]

theorem getIdx_mem (cs : MNTs) (i : Nat) (c : MNT)
    (h : cs.getIdx i = some c) : c ∈ cs.toList := by
  match cs, i with
  | .nil, _ => simp [MNTs.getIdx] at h
  | .cons d ds, 0 =>
    simp [MNTs.getIdx] at h
    simp [MNTs.toList, h]
  | .cons d ds, i + 1 =>
    simp [MNTs.getIdx] at h
    simp [MNTs.toList, getIdx_mem ds i c h]

theorem toList_nil_iff (x : MNT) : x ∈ MNTs.nil.toList ↔ False := by
  simp [MNTs.toList]

theorem toList_cons_iff (c : MNT) (cs : MNTs) (x : MNT) :
    x ∈ (MNTs.cons c cs).toList ↔ x = c ∨ x ∈ cs.toList := by
  simp [MNTs.toList]

theorem insertAtLastEnd_ok (pl : Int) (cs : MNTs) (lvl : Int) (nm : String)
    (cs' : MNTs)
    (hcs : (∀ c ∈ cs.toList, pl < c.level) ∧ ∀ c ∈ cs.toList, LevelsOK c)
    (h : insertAtLastEnd pl cs lvl (.mk lvl true nm .nil) = .ok cs') :
    (∀ c ∈ cs'.toList, pl < c.level) ∧ ∀ c ∈ cs'.toList, LevelsOK c := by
  match cs with
  | .nil => simp [insertAtLastEnd] at h
  | .cons (.mk cl ch cn .nil) .nil =>
    have hc1 := hcs.1 (.mk cl ch cn .nil)
      (by rw [toList_cons_iff]; exact .inl rfl)
    simp only [insertAtLastEnd] at h
    split at h
    · rename_i hlt
      simp only [Except.ok.injEq] at h
      subst h
      constructor <;> intro c hc <;>
        simp only [toList_cons_iff, toList_nil_iff, or_false] at hc <;> subst hc
      · exact hc1
      · refine .intro cl ch cn _ ?_ ?_ <;> intro x hx <;>
          simp only [toList_cons_iff, toList_nil_iff, or_false] at hx <;> subst hx
        · exact hlt
        · exact levelsOK_childless lvl true nm
    · split at h
      · rename_i hnlt hle
        simp only [Except.ok.injEq] at h
        subst h
        constructor <;> intro c hc <;>
          simp only [toList_cons_iff, toList_nil_iff, or_false] at hc <;> subst hc
        · exact hc1
        · refine .intro cl ch cn _ ?_ ?_ <;> intro x hx <;>
            simp only [MNTs.snoc, toList_cons_iff, toList_nil_iff, or_false] at hx <;>
            subst hx
          · show cl < (MNT.mk lvl true nm .nil).level
            show cl < lvl
            omega
          · exact levelsOK_childless lvl true nm
      · split at h
        · rename_i hple
          simp only [Except.ok.injEq] at h
          subst h
          constructor <;> intro c hc <;>
            simp only [toList_cons_iff, toList_nil_iff, or_false] at hc <;>
            rcases hc with hc | hc <;> subst hc
          · exact hc1
          · show pl < (MNT.mk lvl true nm .nil).level
            show pl < lvl
            omega
          · exact levelsOK_childless cl ch cn
          · exact levelsOK_childless lvl true nm
        · simp at h
  | .cons (.mk cl ch cn (.cons d ds)) .nil =>
    have hok : LevelsOK (.mk cl ch cn (.cons d ds)) :=
      hcs.2 _ (by rw [toList_cons_iff]; exact .inl rfl)
    have hinv := levelsOK_inv hok
    simp only [insertAtLastEnd] at h
    split at h
    · rename_i ccs2 hrec
      simp only [Except.ok.injEq] at h
      subst h
      have hrec2 := insertAtLastEnd_ok cl (.cons d ds) lvl nm ccs2 hinv hrec
      constructor <;> intro c hc <;>
        simp only [toList_cons_iff, toList_nil_iff, or_false] at hc <;>
        subst hc
      · exact hcs.1 (.mk cl ch cn (.cons d ds))
          (by rw [toList_cons_iff]; exact .inl rfl)
      · exact .intro cl ch cn ccs2 hrec2.1 hrec2.2
    · simp at h
  | .cons c (.cons d ds) =>
    have htail : (∀ x ∈ (MNTs.cons d ds).toList, pl < x.level) ∧
        ∀ x ∈ (MNTs.cons d ds).toList, LevelsOK x := by
      constructor <;> intro x hx
      · exact hcs.1 x (by rw [toList_cons_iff]; exact .inr hx)
      · exact hcs.2 x (by rw [toList_cons_iff]; exact .inr hx)
    simp only [insertAtLastEnd] at h
    split at h
    · rename_i cs2 hrec
      simp only [Except.ok.injEq] at h
      subst h
      have hrec2 := insertAtLastEnd_ok pl (.cons d ds) lvl nm cs2 htail hrec
      constructor <;> intro x hx <;>
        rw [toList_cons_iff] at hx <;>
        rcases hx with hx | hx
      · subst hx
        exact hcs.1 _ (by rw [toList_cons_iff]; exact .inl rfl)
      · exact hrec2.1 x hx
      · subst hx
        exact hcs.2 _ (by rw [toList_cons_iff]; exact .inl rfl)
      · exact hrec2.2 x hx
    · simp at h

mutual
theorem flatten_childless (t : MNT) : ∀ x ∈ t.Flatten, x.children = .nil := by
  match t with
  | .mk l h n cs =>
    intro x hx
    simp [MNT.Flatten] at hx
    rcases hx with hx | hx
    · simp [hx, MNT.children]
    · exact flattenAll_childless cs x hx

theorem flattenAll_childless (cs : MNTs) : ∀ x ∈ cs.flattenAll, x.children = .nil := by
  match cs with
  | .nil => intro x hx; simp [MNTs.flattenAll] at hx
  | .cons c cs =>
    intro x hx
    simp [MNTs.flattenAll] at hx
    rcases hx with hx | hx
    · exact flatten_childless c x hx
    · exact flattenAll_childless cs x hx
end

theorem btflFold_mem (hd : MNT) (l : List MNT) :
    ∀ (acc : List MNT × MNT) (res : List MNT × MNT),
      List.foldlM (btflStep hd) acc l = some res →
      ∀ x ∈ res.1, x ∈ acc.1 ∨ x ∈ l := by
  induction l with
  | nil =>
    intro acc res h x hx
    simp [List.foldlM] at h
    subst h
    exact .inl hx
  | cons t ts ih =>
    intro acc res h x hx
    simp only [List.foldlM_cons] at h
    unfold btflStep at h
    split at h
    · rcases ih _ _ h x hx with hm | hm
      · rcases List.mem_append.mp hm with hm | hm
        · exact .inl hm
        · simp at hm
          exact .inr (by simp [hm])
      · exact .inr (by simp [hm])
    · split at h
      · simp at h
      · split at h
        · simp at h
        · rcases ih _ _ h x hx with hm | hm
          · exact .inl hm
          · exact .inr (by simp [hm])

theorem btfl_mem (l : List MNT) (r : List MNT)
    (h : buildTreesFromList l = some r) : ∀ x ∈ r, x ∈ l := by
  match l with
  | [] =>
    simp [buildTreesFromList] at h
    subst h
    intro x hx
    simp at hx
  | hd :: tl =>
    simp only [buildTreesFromList, Option.map_eq_some'] at h
    obtain ⟨res, hres, hr⟩ := h
    intro x hx
    rcases btflFold_mem hd (hd :: tl) _ _ hres x (by rw [hr]; exact hx) with hm | hm
    · simp at hm
    · exact hm

theorem spliceFold_inv (anchor : MNT) (pl : Option Int) (l : List MNT)
    (hl : ∀ x ∈ l, x.children = .nil) :
    ∀ (acc res : MNT × List MNT),
      List.foldlM (spliceStep anchor pl) acc l = some res →
      SpliceInv anchor pl acc → SpliceInv anchor pl res := by
  induction l with
  | nil =>
    intro acc res h hi
    simp [List.foldlM] at h
    subst h
    exact hi
  | cons st sts ih =>
    intro acc res h hi
    have hst : st.children = .nil := hl st (by simp)
    have hl2 : ∀ x ∈ sts, x.children = .nil := fun x hx => hl x (by simp [hx])
    simp only [List.foldlM_cons] at h
    unfold spliceStep at h
    split at h
    · rename_i hle
      cases hw : WalkBackToLevel anchor.level pl.toList (st.level - 1) with
      | none =>
        rw [hw] at h
        simp at h
      | some k =>
        rw [hw] at h
        cases k with
        | zero => exact ih hl2 _ _ h hi
        | succ k =>
          refine ih hl2 _ _ h ⟨hi.1, hi.2.1, hi.2.2.1, ?_⟩
          intro u hu
          rcases List.mem_append.mp hu with hu | hu
          · exact hi.2.2.2 u hu
          · simp at hu
            subst hu
            refine ⟨?_, hst⟩
            cases hpl : pl with
            | none =>
              rw [hpl] at hw
              unfold WalkBackToLevel at hw
              split at hw
              · simp at hw
              · simp [Option.toList] at hw
            | some p =>
              rw [hpl] at hw
              unfold WalkBackToLevel at hw
              split at hw
              · simp at hw
              · simp only [Option.toList] at hw
                split at hw
                · rename_i hple
                  exact ⟨p, rfl, by omega⟩
                · simp at hw
    · rename_i hgt
      refine ih hl2 _ _ h ⟨hi.1, hi.2.1, ?_, hi.2.2.2⟩
      intro c hc
      simp [MNT.children, toList_snoc] at hc
      rcases hc with hc | hc
      · exact hi.2.2.1 c hc
      · subst hc
        exact ⟨by omega, hst⟩

theorem spliceCore_ok (anchor sub : MNT) (pl : Option Int) (re : MNT)
    (ups : List MNT) (h : InsertSubtreeCore anchor sub pl = some (re, ups)) :
    re.level = anchor.level ∧ re.headed = anchor.headed ∧ LevelsOK re ∧
      ∀ u ∈ ups, (∃ p, pl = some p ∧ p < u.level) ∧ LevelsOK u := by
  unfold InsertSubtreeCore at h
  split at h
  · simp at h
  · rename_i subtrees hb
    have hcl : ∀ x ∈ sub.Flatten ++ anchor.children.flattenAll,
        x.children = .nil := by
      intro x hx
      rcases List.mem_append.mp hx with hx | hx
      · exact flatten_childless sub x hx
      · exact flattenAll_childless anchor.children x hx
    have hsub : ∀ x ∈ subtrees, x.children = .nil := fun x hx =>
      hcl x (btfl_mem _ subtrees hb x hx)
    have hinv := spliceFold_inv anchor pl subtrees hsub _ _ h
      ⟨rfl, rfl, by intro c hc; simp [MNT.children, MNTs.toList] at hc,
        by intro u hu; simp at hu⟩
    obtain ⟨e1, e2, e3, e4⟩ := hinv
    refine ⟨e1, e2, ?_, ?_⟩
    · match hre : re, e1, e3 with
      | .mk rl rh rn rcs, e1, e3 =>
        refine .intro rl rh rn rcs ?_ ?_
        · intro c hc
          have h5 := e3 c (by simpa [MNT.children] using hc)
          have e5 : rl = anchor.level := e1
          omega
        · intro c hc
          have := e3 c (by simpa [MNT.children] using hc)
          match c, this.2 with
          | .mk cl ch cn .nil, _ => exact levelsOK_childless cl ch cn
    · intro u hu
      refine ⟨(e4 u hu).1, ?_⟩
      have := (e4 u hu).2
      match u, this with
      | .mk ul uh un .nil, _ => exact levelsOK_childless ul uh un

theorem spliceAux_ok (path : List Nat) (t sub : MNT) (pl : Option Int)
    (t' : MNT) (ups : List MNT) (hok : LevelsOK t)
    (h : InsertSubtreeAux t path sub pl = some (t', ups)) :
    t'.level = t.level ∧ t'.headed = t.headed ∧ LevelsOK t' ∧
      ∀ u ∈ ups, (∃ p, pl = some p ∧ p < u.level) ∧ LevelsOK u := by
  induction path generalizing t pl t' ups with
  | nil => exact spliceCore_ok t sub pl t' ups h
  | cons i rest ih =>
    unfold InsertSubtreeAux at h
    split at h
    · simp at h
    · rename_i c hg
      split at h
      · simp at h
      · rename_i c' ups' hr
        · simp only [Option.some.injEq, Prod.mk.injEq] at h
          obtain ⟨ht', hups⟩ := h
          match t, hok with
          | .mk tl th tn tcs, hok =>
            have hinv := levelsOK_inv hok
            have hcmem : c ∈ tcs.toList := getIdx_mem tcs i c hg
            have hcok : LevelsOK c := hinv.2 c hcmem
            obtain ⟨ihl, ihh, ihok, ihups⟩ := ih c (some tl) c' ups' hcok hr
            subst ht'
            refine ⟨rfl, rfl, ?_, by intro u hu; rw [← hups] at hu; simp at hu⟩
            refine .intro tl th tn ((tcs.setIdx i c').appendList ups') ?_ ?_
            · intro x hx
              rw [toList_appendList] at hx
              rcases List.mem_append.mp hx with hx | hx
              · rcases mem_setIdx tcs i c' x hx with hx | hx
                · subst hx
                  have : tl < c.level := hinv.1 c hcmem
                  omega
                · exact hinv.1 x hx
              · obtain ⟨⟨p, hp, hpl⟩, _⟩ := ihups x hx
                simp at hp
                omega
            · intro x hx
              rw [toList_appendList] at hx
              rcases List.mem_append.mp hx with hx | hx
              · rcases mem_setIdx tcs i c' x hx with hx | hx
                · subst hx
                  exact ihok
                · exact hinv.2 x hx
              · exact (ihups x hx).2

theorem spliceAt_ok (t : MNT) (path : List Nat) (sub : MNT) (t' : MNT)
    (hok : LevelsOK t) (h : InsertSubtreeAt t path sub = some t') :
    t'.level = t.level ∧ t'.headed = t.headed ∧ LevelsOK t' := by
  unfold InsertSubtreeAt at h
  cases ha : InsertSubtreeAux t path sub none with
  | none => rw [ha] at h; simp at h
  | some pr =>
    rw [ha] at h
    match pr, ha, h with
    | (t'', ups), ha, h =>
      match ups, h with
      | [], h =>
        simp only [Option.some.injEq] at h
        subst h
        have := spliceAux_ok path t sub none t'' [] hok ha
        exact ⟨this.1, this.2.1, this.2.2.1⟩

theorem addHeading_ok (root : MNT) (lvl : Int) (nm : String) (root' : MNT)
    (h0 : root.level = 0) (hok : LevelsOK root)
    (h : AddHeading root lvl nm = .ok root') :
    root'.level = root.level ∧ root'.headed = root.headed ∧ LevelsOK root' := by
  match root, h0, hok with
  | .mk rl rh rn rcs, h0, hok =>
    have hrl : rl = 0 := h0
    have hinv := levelsOK_inv hok
    simp only [AddHeading] at h
    split at h
    · simp at h
    · split at h
      · rename_i hlvl1
        simp only [Except.ok.injEq] at h
        subst h
        refine ⟨rfl, rfl, .intro rl rh rn _ ?_ ?_⟩ <;> intro c hc <;>
          rw [show (MNT.mk rl rh rn rcs).children = rcs from rfl, toList_snoc] at hc <;>
          rcases List.mem_append.mp hc with hc | hc
        · exact hinv.1 c hc
        · simp at hc
          subst hc
          show rl < lvl
          rename_i hlvl1a
          omega
        · exact hinv.2 c hc
        · simp at hc
          subst hc
          exact levelsOK_childless lvl true nm
      · split at h
        · rename_i hroot
          split at h
          · rename_i hlt
            simp only [Except.ok.injEq] at h
            subst h
            refine ⟨rfl, rfl, .intro rl rh rn _ ?_ ?_⟩ <;> intro c hc <;>
              simp only [toList_cons_iff, toList_nil_iff, or_false] at hc <;>
              subst hc
            · exact hlt
            · exact levelsOK_childless lvl true nm
          · split at h
            · rename_i hnlt hle
              exfalso
              have h1 : ¬(MNT.mk rl rh rn rcs).level < lvl := hnlt
              have h2 : (MNT.mk rl rh rn rcs).level ≤ lvl - 1 := hle
              have h3 : (MNT.mk rl rh rn rcs).level = rl := rfl
              omega
            · simp at h
        · rename_i c cs hcs
          split at h
          · rename_i cs2 hrec
            simp only [Except.ok.injEq] at h
            subst h
            have hcs2 : (∀ x ∈ (MNTs.cons c cs).toList, (MNT.mk rl rh rn rcs).level < x.level) ∧
                ∀ x ∈ (MNTs.cons c cs).toList, LevelsOK x := by
              rw [← hcs]
              exact hinv
            have := insertAtLastEnd_ok (MNT.mk rl rh rn rcs).level (.cons c cs)
              lvl nm cs2 hcs2 hrec
            exact ⟨rfl, rfl, .intro rl rh rn cs2 this.1 this.2⟩
          · simp at h


/-! ## Claim theorems -/

/-- C1.  Splice re-partition: the claim's example behaves as stated —
splicing `X(2)` after `A(1)` in `[A(1), B(2), C(2)]` yields pre-order
`[A, X, B, C]` with `B` and `C` siblings of `X` — but the claim's
general clause fails: in `[A(1), B(3)]`, the node `B`, whose level
exceeds the anchor's, should become a descendant of the spliced subtree,
yet `buildTreesFromList` has no branch for a node deeper than the head
of its list and `B` is dropped from the result entirely. -/
theorem c1_splice_repartition :
    InsertSubtreeAt treeABC [0] subX =
      some (.mk 0 false "root" (.cons (.mk 1 true "A"
        (.cons (.mk 2 true "X" .nil) (.cons (.mk 2 true "B" .nil)
          (.cons (.mk 2 true "C" .nil) .nil)))) .nil)) ∧
    InsertSubtreeAt treeAB3 [0] subX =
      some (.mk 0 false "root" (.cons (.mk 1 true "A"
        (.cons (.mk 2 true "X" .nil) .nil)) .nil)) :=
  ⟨rfl, rfl⟩

/-- C2.  Plain shift: for the `+2d` stamp, `Shift` advances the start by
four days (to 2020-01-05), not by the claimed two days (2020-01-03):
`Shift` calls `Shiftn(IntervalAmount)` and `Shiftn` multiplies by the
amount again.  The result is indeed independent of the reference
time. -/
theorem c2_plain_shift (t : DT) :
    (Shift 1 stampPlus2d t).map (fun r => r.ts.start) =
      some ⟨2020, 1, 5, 8, 30⟩ ∧
    (Shift 1 stampPlus2d t).map (fun r => r.ts.start) ≠
      some ⟨2020, 1, 3, 8, 30⟩ := by
  have h1 : (Shift 1 stampPlus2d t).map (fun r => r.ts.start) =
      some ⟨2020, 1, 5, 8, 30⟩ := rfl
  refine ⟨h1, ?_⟩
  rw [h1]
  decide

/-- C3.  Heading-level validation: `AddHeading` rejects only negative
levels (`lvl < 0`), so the requested level 0 — which the claim, the
invariant and the error's own message (`must be greater than 0`) say
must produce the invalid-level error — passes the guard and instead
faults on the nil result of `WalkBackToLevel(-1)`. -/
theorem c3_level_guard :
    AddHeading NewMetaNodeTree (-1) "h" = .error (.invalidLevel (-1)) ∧
    AddHeading NewMetaNodeTree 0 "h" = .error .fatal ∧
    AddHeading NewMetaNodeTree 0 "h" ≠ .error (.invalidLevel 0) := by
  refine ⟨rfl, rfl, ?_⟩
  intro h
  rw [show AddHeading NewMetaNodeTree 0 "h" = .error .fatal from rfl] at h
  exact absurd (Except.error.inj h) (by decide)

/-- C4.  Month-shift fixed-date drift: under the clamp-plus-fixed-date
month policy (the spec's "clamp + fixed-date" bullet), the monthly
repeat anchored on 2021-01-31 shifts to 2021-02-28 and then to
2021-03-28, and since the clamped day becomes the reference day for
every later step, no number of further shifts ever lands on day 31
again: every month has at least 28 days, so a day of at most 28 is
preserved by each step. -/
theorem c4_month_drift :
    (shiftByMonths stampJan31 1).map (fun r => r.ts.start) =
      .ok ⟨2021, 2, 28, 9, 0⟩ ∧
    (shiftByMonths stampJan31 2).map (fun r => r.ts.start) =
      .ok ⟨2021, 3, 28, 9, 0⟩ ∧
    ∀ n : Int, 1 ≤ n →
      (shiftByMonths stampJan31 n).map (fun r => r.ts.start.day) = .ok 28 := by
  refine ⟨by decide, by decide, fun n hn => ?_⟩
  obtain ⟨k, hk⟩ : ∃ k, n.toNat = k + 1 := ⟨n.toNat - 1, by omega⟩
  have h1 : shiftByMonth stampJan31 = .ok
      { ts := { start := ⟨2021, 2, 28, 9, 0⟩, endT := zeroDT, dateOnly := false,
                active := true, isRange := false,
                rep := some ⟨.shift, 1, .month⟩ },
        repeatConfig := cfgClampFixedDate } := by decide
  obtain ⟨rs', hiter, hzero, hday⟩ := shiftByMonthsIter_day k
    { ts := { start := ⟨2021, 2, 28, 9, 0⟩, endT := zeroDT, dateOnly := false,
              active := true, isRange := false,
              rep := some ⟨.shift, 1, .month⟩ },
      repeatConfig := cfgClampFixedDate } rfl rfl (by decide) (by decide)
    (by decide) (by decide)
  have hall : shiftByMonthsIter n.toNat stampJan31 = .ok rs' := by
    rw [hk]
    show (do
      let next ← shiftByMonth stampJan31
      shiftByMonthsIter k next) = .ok rs'
    rw [h1]
    exact hiter
  unfold shiftByMonths
  rw [hall]
  show Except.map (fun r : RepeatStamp => r.ts.start.day)
    (Except.ok (if ¬rs'.ts.endT.isZero then _ else _)) = .ok 28
  rw [if_neg (by simp [hzero, DT.isZero])]
  simp [Except.map, hday]

/-- Witness for C4: the universally quantified clause applied at the
third shift. -/
theorem c4_month_drift_witness :
    (shiftByMonths stampJan31 3).map (fun r => r.ts.start.day) = .ok 28 :=
  c4_month_drift.2.2 3 (by decide)

/-- C5.  Property restriction round-trip: the restriction loop never
emits the value still accumulated when the input ends, so
`Color_All = red green "light blue"` yields only `["red", "green"]` —
not the claimed three values.  Validating `Color=red` succeeds, and
`Color=purple` fails, but the error carries the swapped
`NewInvalidPropertyValueError(p, prop)` arguments: the restricted
property and the restrictor trade places and the allowed-value set
recorded is `prop.RestrictionValues()`, which is empty. -/
theorem c5_restriction_roundtrip :
    RestrictionValues colorAll = some ["red", "green"] ∧
    Validate colorAll colorRed = some (.ok ()) ∧
    Validate colorAll colorPurple = some (.error (.invalidPropertyValue
      ⟨"Color_All", "red green \"light blue\"", "Color", []⟩)) :=
  ⟨by decide, by decide, by decide⟩

/-- C6.  `ShiftUntil`/`ShiftUntilAfter`: for the monthly fixed-date
stamp anchored 2021-01-15 and the target 2021-12-20, `ShiftUntil`
returns the 2021-11-15 occurrence even though the next single-step
occurrence (2021-12-15) is still not after the target — the confirming
recursion is guarded by `t.Before(confirmTry.End)`, which is false for a
zero `End` — and `ShiftUntilAfter` returns 2021-12-15, which is not
strictly after the target: it computes the corrective recursive call but
discards its result. -/
theorem c6_shift_until :
    (ShiftUntil 5 stampJan15 targetDec20).map (fun r => r.ts.start) =
      some ⟨2021, 11, 15, 0, 0⟩ ∧
    ((ShiftUntil 5 stampJan15 targetDec20).bind
        (fun r => Shiftn r 1)).map (fun r => r.ts.start) =
      some ⟨2021, 12, 15, 0, 0⟩ ∧
    (ShiftUntilAfter 5 stampJan15 targetDec20).map (fun r => r.ts.start) =
      some ⟨2021, 12, 15, 0, 0⟩ ∧
    ¬dtBefore targetDec20 ⟨2021, 12, 15, 0, 0⟩ :=
  ⟨by decide, by decide, by decide, by decide⟩

/-- C8.  Shift immutability: shifting the date-only hourly stamp mutates
the original — `shiftByHours` assigns the midnight-normalised start back
through the receiver pointer, so after `Shiftn(1)` the caller's stamp
starts at 2020-01-01 00:00 instead of its original 08:30. -/
theorem c8_receiver_mutation :
    stampDateOnlyHourly.ts.start = ⟨2020, 1, 1, 8, 30⟩ ∧
    (ShiftnM stampDateOnlyHourly 1).map (fun p => p.1.ts.start) =
      some ⟨2020, 1, 1, 0, 0⟩ ∧
    (ShiftnM stampDateOnlyHourly 1).map (fun p => p.1.ts.start) ≠
      some stampDateOnlyHourly.ts.start :=
  ⟨rfl, rfl, by decide⟩

/-- C9.  Tree level invariant: every tree reachable from the fresh
document root by successful heading insertions and subtree splices has
its root at level 0 with no heading, and every child's level strictly
exceeds its parent's — proved for all parents, which subsumes the
claim's restriction to non-root parents; gaps larger than one are
allowed, as the witness tree with a level-3 child of a level-1 node
shows. -/
theorem c9_level_invariant (t : MNT) (h : Reach t) :
    t.level = 0 ∧ t.headed = false ∧ LevelsOK t := by
  induction h with
  | init =>
    refine ⟨rfl, rfl, ?_⟩
    refine .intro 0 false "root" .nil ?_ ?_ <;> intro c hc <;>
      rw [toList_nil_iff] at hc <;> exact hc.elim
  | insert t t' lvl nm _ hins ih =>
    have := addHeading_ok t lvl nm t' ih.1 ih.2.2 hins
    exact ⟨this.1.trans ih.1, this.2.1.trans ih.2.1, this.2.2⟩
  | splice t t' sub path _ _ hsp ih =>
    have := spliceAt_ok t path sub t' ih.2.2 hsp
    exact ⟨this.1.trans ih.1, this.2.1.trans ih.2.1, this.2.2⟩

/-- Witness for C9: the invariant obtained from a concrete reachability
derivation, inserting a level-1 then a level-3 heading. -/
theorem c9_level_invariant_witness :
    Reach treeLvl13 ∧ treeLvl13.level = 0 ∧ treeLvl13.headed = false ∧
      LevelsOK treeLvl13 := by
  have h1 : Reach treeLvl1 := .insert NewMetaNodeTree treeLvl1 1 "a" .init rfl
  have h2 : Reach treeLvl13 := .insert treeLvl1 treeLvl13 3 "b" h1 rfl
  exact ⟨h2, c9_level_invariant treeLvl13 h2⟩

/-- C10.  `NewTimestampRange` never builds a range with a nil
`EndDate`: a nil end yields `NilTimestampsError` with no range, and any
successfully constructed range has both dates present. -/
theorem c10_range_constructor :
    (∀ s : Timestamp,
      NewTimestampRange (some s) none = .error .nilTimestamps) ∧
    (∀ s e tr, NewTimestampRange s e = .ok tr →
      tr.startDate ≠ none ∧ tr.endDate ≠ none) := by
  refine ⟨fun s => rfl, fun s e tr h => ?_⟩
  match s, e with
  | none, none => simp [NewTimestampRange] at h
  | none, some e => simp [NewTimestampRange] at h
  | some s, none => simp [NewTimestampRange] at h
  | some s, some e =>
    simp only [NewTimestampRange, Except.ok.injEq] at h
    subst h
    exact ⟨by simp, by simp⟩

/-- C7.  Both day-counting policies set: the month step fails with
`InvalidRepeatConfigError` as an explicit result the moment a month
shift is attempted — `shiftByMonth` checks the flags before anything
else and `shiftByMonths` propagates the failure from its first
iteration — while a zero-step "shift" (no month shift attempted)
still succeeds, and nothing rejects the configuration at construction
time, it being plain data. -/
theorem c7_invalid_config (rs : RepeatStamp)
    (h1 : rs.repeatConfig.shiftByDays = true)
    (h2 : rs.repeatConfig.fixedDate = true) :
    shiftByMonth rs = .error .invalidRepeatConfig ∧
    (∀ i : Int, 1 ≤ i → shiftByMonths rs i = .error .invalidRepeatConfig) ∧
    shiftByMonths rs 0 = .ok rs := by
  have hm : shiftByMonth rs = .error .invalidRepeatConfig := by
    unfold shiftByMonth
    rw [h1, h2]
    simp
  refine ⟨hm, fun i hi => ?_, ?_⟩
  · obtain ⟨n, hn⟩ : ∃ n, i.toNat = n + 1 := ⟨i.toNat - 1, by omega⟩
    unfold shiftByMonths
    rw [hn]
    unfold shiftByMonthsIter
    rw [hm]
    rfl
  · unfold shiftByMonths shiftByMonthsIter
    show Except.ok (if ¬rs.ts.endT.isZero then _ else _) = .ok rs
    split <;> rfl

/-- Witness for C7: the invalid configuration on a concrete monthly
stamp. -/
theorem c7_invalid_config_witness :
    stampBadConfig.repeatConfig.shiftByDays = true ∧
    stampBadConfig.repeatConfig.fixedDate = true ∧
    shiftByMonth stampBadConfig = .error .invalidRepeatConfig ∧
    shiftByMonths stampBadConfig 1 = .error .invalidRepeatConfig ∧
    shiftByMonths stampBadConfig 0 = .ok stampBadConfig :=
  ⟨rfl, rfl, (c7_invalid_config stampBadConfig rfl rfl).1,
    (c7_invalid_config stampBadConfig rfl rfl).2.1 1 (by decide),
    (c7_invalid_config stampBadConfig rfl rfl).2.2⟩

/-- Witness for C10: the second clause applied to a concretely
constructed range. -/
theorem c10_range_constructor_witness :
    NewTimestampRange (some tsPlain) (some tsPlain) =
      .ok ⟨some tsPlain, some tsPlain, false⟩ ∧
    (⟨some tsPlain, some tsPlain, false⟩ : TimestampRange).startDate ≠ none ∧
    (⟨some tsPlain, some tsPlain, false⟩ : TimestampRange).endDate ≠ none :=
  ⟨rfl, (c10_range_constructor.2 (some tsPlain) (some tsPlain) _ rfl).1,
    (c10_range_constructor.2 (some tsPlain) (some tsPlain) _ rfl).2⟩

end org
